import Mathlib

/-!
Shallow embedding of the intake/triage MCP server core
(mcp-server/mcp_server.py): text normalization, keyword
classification, severity scoring, routing, and the triage pipeline.
Strings are modelled over ASCII character lists; Python dicts become
ordered association lists; the Python float confidence becomes an
exact rational with explicit rounding to two decimal places.
-/

attribute [local semireducible] Rat.mul Rat.inv Rat.add Rat.sub

/-- Whitespace characters recognized by the Python regex class for
spaces and by string strip, restricted to the ASCII range. -/
def isWs (c : Char) : Bool :=
  c = ' ' || c = '\t' || c = '\n' || c = '\x0d' || c = '\x0b' || c = '\x0c'

/-- Lowercase ASCII letter test, the a-z range of the regex. -/
def isLowerAZ (c : Char) : Bool :=
  'a' ≤ c && c ≤ 'z'

/-- ASCII digit test, the 0-9 range of the regex. -/
def isDigit09 (c : Char) : Bool :=
  '0' ≤ c && c ≤ '9'

/-- A character kept unchanged by the substitution: inside a-z, 0-9,
or the whitespace class. Every other character becomes a space. -/
def keepCh (c : Char) : Bool :=
  isLowerAZ c || isDigit09 c || isWs c

/-- Python str.strip: remove leading and trailing whitespace. The
right end is trimmed through a reverse, then the left end directly. -/
def trimWs (l : List Char) : List Char :=
  ((l.reverse.dropWhile isWs).reverse).dropWhile isWs

/-- Core of normalize_text over character lists: lowercase, replace
every character outside a-z, 0-9 and whitespace by one space, strip. -/
def normList (l : List Char) : List Char :=
  trimWs ((l.map Char.toLower).map (fun c => if keepCh c then c else ' '))

/-- normalize_text from the source: lowercases, substitutes each
non-alphanumeric, non-whitespace character by a single space, and
strips the ends. The result is kept as a character list. -/
def normalize_text (s : String) : List Char :=
  normList s.data

/-- Contiguous substring test, the Python membership test on strings:
containsSub k l is true when k occurs contiguously inside l. The
empty list occurs in every list. -/
def containsSub (k : List Char) : List Char → Bool
  | [] => k.isEmpty
  | c :: t => k.isPrefixOf (c :: t) || containsSub k t

/-- Error payload of the envelope returned on validation failure. -/
structure ErrResp where
  code : Nat
  message : String
deriving DecidableEq, Repr

/-- The 422 envelope produced for empty or whitespace-only text. -/
def invalidText : ErrResp :=
  ⟨422, "Invalid input: text must be a non-empty string."⟩

/-- One taxonomy entry: a category key and its keyword list. -/
structure TaxonomyEntry where
  id : String
  keywords : List String
deriving DecidableEq, Repr

/-- Result record of classify_intake. The source field needs_llm is
what the specification calls needs_external_decision; confidence is
modelled as an exact rational. -/
structure ClassificationResult where
  category : Option String
  confidence : ℚ
  matched_keywords : List String
  needs_llm : Bool
deriving DecidableEq, Repr

/-- Floor of a rational, written over the numerator and denominator
so that it evaluates by integer division. -/
def ratFloor (q : ℚ) : Int :=
  q.num / (q.den : Int)

/-- Rounding to two decimal places, the round(x, 2) of the source:
multiply by one hundred, round to the nearest integer, divide back. -/
def round2 (q : ℚ) : ℚ :=
  ((ratFloor (q * 100 + 1/2) : ℚ)) / 100

/-- Keyword match test of the classifier and the severity scorer: the
normalized keyword must be non-empty and occur inside the normalized
text, mirroring the guard kw_norm and kw_norm in normalized_text. -/
def kwMatches (ntext : List Char) (kw : String) : Bool :=
  !(normalize_text kw).isEmpty && containsSub (normalize_text kw) ntext

/-- The keywords of one taxonomy entry that match the text, in
declared order. -/
def entryMatches (ntext : List Char) (e : TaxonomyEntry) : List String :=
  e.keywords.filter (kwMatches ntext)

/-- Number of matching keywords of one entry. -/
def entryScore (ntext : List Char) (e : TaxonomyEntry) : Nat :=
  (entryMatches ntext e).length

/-- One increment of the scores dictionary: bump an existing key or
append a fresh key with count one, preserving insertion order. -/
def insertScore : List (String × Nat) → String → List (String × Nat)
  | [], c => [(c, 1)]
  | (k, v) :: rest, c =>
    if k = c then (k, v + 1) :: rest else (k, v) :: insertScore rest c

/-- The scores dictionary after the double loop of classify_intake:
for every taxonomy entry in order, one increment per matching
keyword, keys in insertion order. -/
def scoresOf (ntext : List Char) (tax : List TaxonomyEntry) : List (String × Nat) :=
  tax.foldl (fun acc e => (entryMatches ntext e).foldl (fun a _ => insertScore a e.id) acc) []

/-- The matched dictionary of classify_intake restricted to one
category: matching keywords of every entry with that id, in scan
order. -/
def matchedOf (ntext : List Char) (tax : List TaxonomyEntry) (cat : String) : List String :=
  tax.foldl (fun acc e => if e.id = cat then acc ++ entryMatches ntext e else acc) []

/-- Python max over dictionary keys with the score as key function:
left fold keeping the current best on ties, so the first key
attaining the maximum wins. -/
def pyMaxAux (best : String × Nat) : List (String × Nat) → String × Nat
  | [] => best
  | p :: rest => pyMaxAux (if p.2 > best.2 then p else best) rest

/-- classify_intake from the source: validate the text, build the
scores, and either report no match with zero confidence or report the
best category, its rounded confidence share, its matched keywords,
and the low-confidence flag. -/
def classify_intake (tax : List TaxonomyEntry) (text : String) : Except ErrResp ClassificationResult :=
  if (trimWs text.data).isEmpty then .error invalidText
  else
    let ntext := normalize_text text
    match scoresOf ntext tax with
    | [] => .ok ⟨none, 0, [], true⟩
    | s0 :: srest =>
      let best := pyMaxAux s0 srest
      let total : Nat := ((scoresOf ntext tax).map Prod.snd).sum
      let confidence := round2 ((best.2 : ℚ) / (total : ℚ))
      .ok ⟨some best.1, confidence, matchedOf ntext tax best.1, decide (confidence < 1/2)⟩

/-- One severity rule: configured score and keyword list. -/
structure SeverityRule where
  score : Int
  keywords : List String
deriving DecidableEq, Repr

/-- The rule used when a level is absent from the dictionary: empty
keyword list, score zero. -/
def emptyRule : SeverityRule :=
  ⟨0, []⟩

/-- Result record of score_severity. -/
structure SeverityResult where
  score : Int
  level : String
  reason : String
deriving DecidableEq, Repr

/-- The fixed priority order scanned first by score_severity. -/
def priorityOrder : List String :=
  ["critical", "high", "medium", "low"]

/-- Scan order of severity levels: the four priority names that are
present, in that fixed order, then the remaining declared levels in
declaration order. -/
def orderedLevels (rules : List (String × SeverityRule)) : List String :=
  priorityOrder.filter (fun lvl => (rules.map Prod.fst).contains lvl) ++
    (rules.map Prod.fst).filter (fun lvl => !priorityOrder.contains lvl)

/-- First matching keyword of one level together with the rule of
that level, when any keyword of the level matches the text. -/
def levelMatch (rules : List (String × SeverityRule)) (ntext : List Char) (lvl : String) :
    Option (String × SeverityRule) :=
  let rule := (rules.lookup lvl).getD emptyRule
  (rule.keywords.find? (kwMatches ntext)).map (fun kw => (kw, rule))

/-- The level loop of score_severity: walk the scan order and stop
at the first level one of whose keywords matches, yielding the level,
the keyword, and the rule of that level. -/
def firstLevelHit (rules : List (String × SeverityRule)) (ntext : List Char) :
    List String → Option (String × String × SeverityRule)
  | [] => none
  | lvl :: rest =>
    match levelMatch rules ntext lvl with
    | some (kw, rule) => some (lvl, kw, rule)
    | none => firstLevelHit rules ntext rest

/-- score_severity from the source: validate the text, scan the
levels in order and return the first match with its configured score,
otherwise escalate for the emergency category or fall back to the
default low result. -/
def score_severity (rules : List (String × SeverityRule)) (text : String)
    (category : Option String) : Except ErrResp SeverityResult :=
  if (trimWs text.data).isEmpty then .error invalidText
  else
    let ntext := normalize_text text
    match firstLevelHit rules ntext (orderedLevels rules) with
    | some (lvl, kw, rule) => .ok ⟨rule.score, lvl, "Matched keyword: " ++ kw⟩
    | none =>
      if category = some "emergency" then
        .ok ⟨9, "escalated", "Emergency category escalation"⟩
      else
        .ok ⟨2, "low", "No severity indicators found"⟩

/-- Global severity override configuration. -/
structure SeverityOverride where
  min_score : Int
  destination : String
  priority : String
deriving DecidableEq, Repr

/-- One routing rule; the category and destination keys may be
absent, hence the options. -/
structure RoutingRule where
  category : Option String
  threshold : Int
  destination : Option String
deriving DecidableEq, Repr

/-- Routing configuration: default queue, override, ordered rules. -/
structure RoutingConfig where
  default_destination : String
  severity_override : SeverityOverride
  routes : List RoutingRule
deriving DecidableEq, Repr

/-- The four status labels of route_case; the source spells them as
the strings Severity override, Routed via routing.json, Below
threshold, and Unknown category fallback. -/
inductive RouteStatus where
  | severity_override
  | routed
  | below_threshold
  | unknown_fallback
deriving DecidableEq, Repr

/-- Result record of route_case. -/
structure RoutingResult where
  destination : String
  priority : String
  status : RouteStatus
deriving DecidableEq, Repr

/-- route_case from the source: the override wins whenever the score
reaches min_score; otherwise the first rule whose category equals the
argument decides, with priority from the seven threshold and the rule
threshold; otherwise the default queue. The score argument is typed,
so the integer type check at the top of the source cannot fail. -/
def route_case (cfg : RoutingConfig) (category : Option String) (score : Int) : RoutingResult :=
  if score ≥ cfg.severity_override.min_score then
    ⟨cfg.severity_override.destination, cfg.severity_override.priority, .severity_override⟩
  else
    match cfg.routes.find? (fun r => r.category == category) with
    | some r =>
      let destination := r.destination.getD cfg.default_destination
      if score ≥ r.threshold then
        ⟨destination, if score ≥ 7 then "HIGH" else "NORMAL", .routed⟩
      else
        ⟨destination, "LOW", .below_threshold⟩
    | none => ⟨cfg.default_destination, "LOW", .unknown_fallback⟩

/-- The triage summary block assembled in the resolved branch. -/
structure TriageSummary where
  category : String
  severity_level : String
  severity_score : Int
  priority : String
  destination : String
  status : RouteStatus
deriving DecidableEq, Repr

/-- Terminal shapes of the pipeline: deferred to the external
decision maker with the raw classification, or resolved with the
summary and the three component results. -/
inductive TriageResult where
  | deferred (classification : ClassificationResult)
  | resolved (summary : TriageSummary) (classification : ClassificationResult)
      (severity : SeverityResult) (routing : RoutingResult)
deriving DecidableEq, Repr

/-- The needs_llm field of the triage response: true on the deferred
shape, false on the resolved shape, as written literally in the two
return statements of the source. -/
def TriageResult.needsLLM : TriageResult → Bool
  | .deferred _ => true
  | .resolved _ _ _ _ => false

/-- The configuration snapshot the tools load: taxonomy, severity
rules as an ordered dictionary, routing configuration. -/
structure Config where
  taxonomy : List TaxonomyEntry
  severity_rules : List (String × SeverityRule)
  routing : RoutingConfig
deriving DecidableEq, Repr

/-- Python or-default on an optional string: the default replaces
both the absent value and the empty string, both falsy. -/
def pyOrDefault (s : Option String) (d : String) : String :=
  match s with
  | none => d
  | some v => if v = "" then d else v

/-- triage_intake from the source: validate, classify, stop with the
deferred shape when the classifier set needs_llm, otherwise score the
severity, route, and assemble the resolved shape. -/
def triage_intake (cfg : Config) (text : String) : Except ErrResp TriageResult :=
  if (trimWs text.data).isEmpty then .error invalidText
  else
    match classify_intake cfg.taxonomy text with
    | .error e => .error e
    | .ok classification =>
      if classification.needs_llm then .ok (.deferred classification)
      else
        match score_severity cfg.severity_rules text classification.category with
        | .error e => .error e
        | .ok severity =>
          let score := severity.score
          let routing := route_case cfg.routing classification.category score
          .ok (.resolved
            ⟨pyOrDefault classification.category "general_inquiry",
              severity.level, score, routing.priority, routing.destination, routing.status⟩
            classification severity routing)

/-- Decidable equality on result envelopes, for evaluating the
operations at concrete inputs. -/
instance {ε α : Type} [DecidableEq ε] [DecidableEq α] : DecidableEq (Except ε α) := fun a b =>
  match a, b with
  | .ok x, .ok y => if h : x = y then .isTrue (by rw [h]) else .isFalse (by simp [h])
  | .error x, .error y => if h : x = y then .isTrue (by rw [h]) else .isFalse (by simp [h])
  | .ok _, .error _ => .isFalse (by simp)
  | .error _, .ok _ => .isFalse (by simp)

/-- Rank of a severity level in the scan order stated by the
specification: the four fixed names first, then the remaining
declared levels by declaration position. -/
def levelRank (declared : List String) (lvl : String) : Nat :=
  if lvl = "critical" then 0
  else if lvl = "high" then 1
  else if lvl = "medium" then 2
  else if lvl = "low" then 3
  else 4 + declared.indexOf lvl

/-- Whether some keyword of the given level matches the text under
the match test of the source, nonempty normalization included. -/
def levelHasMatch (rules : List (String × SeverityRule)) (ntext : List Char) (lvl : String) : Bool :=
  ((rules.lookup lvl).getD emptyRule).keywords.any (kwMatches ntext)

/-- The level selection worded exactly as the severity claim states
it: the first level in scan order containing a keyword whose
normalization is a substring of the normalized text, with no
requirement that the normalization be non-empty. -/
def claimLevelOf (rules : List (String × SeverityRule)) (ntext : List Char) : Option String :=
  (orderedLevels rules).find?
    (fun lvl => ((rules.lookup lvl).getD emptyRule).keywords.any
      (fun kw => containsSub (normalize_text kw) ntext))

/-- The priority worded exactly as the routing claim states it: HIGH
when the score is at least seven, else NORMAL when the score meets
the threshold, else LOW. -/
def claimPriority (threshold score : Int) : String :=
  if 7 ≤ score then "HIGH" else if threshold ≤ score then "NORMAL" else "LOW"

/-- Whether a character list is free of two adjacent whitespace
characters, the single-space condition of the normalization claim. -/
def singleSpaced : List Char → Bool
  | a :: b :: t => !(isWs a && isWs b) && singleSpaced (b :: t)
  | _ => true

/-- A small healthcare-flavored taxonomy used to exercise the
operations at concrete inputs. -/
def sampleTaxonomy : List TaxonomyEntry :=
  [⟨"emergency", ["chest pain", "bleeding"]⟩, ⟨"billing", ["invoice", "refund"]⟩]

/-- A small severity rule set used to exercise the operations. -/
def sampleSeverity : List (String × SeverityRule) :=
  [("critical", ⟨10, ["difficulty breathing"]⟩), ("low", ⟨1, ["minor"]⟩)]

/-- A small routing configuration used to exercise the operations. -/
def sampleRouting : RoutingConfig :=
  ⟨"General_Queue", ⟨9, "High_Priority_Queue", "HIGH"⟩,
    [⟨some "emergency", 5, some "ER_Queue"⟩, ⟨some "billing", 5, some "Billing_Queue"⟩]⟩

/-- The combined sample configuration. -/
def sampleConfig : Config :=
  ⟨sampleTaxonomy, sampleSeverity, sampleRouting⟩

/-- A severity rule set whose only keyword normalizes to the empty
list: pure punctuation. -/
def punctRules : List (String × SeverityRule) :=
  [("critical", ⟨10, ["!!!"]⟩)]

/-- A severity rule set with a negative configured score. -/
def negScoreRules : List (String × SeverityRule) :=
  [("low", ⟨-1, ["pain"]⟩)]

/-- A routing configuration whose single rule has a threshold of
eight, above the seven used for the HIGH priority cut. -/
def thresholdEightRouting : RoutingConfig :=
  ⟨"General_Queue", ⟨9, "High_Priority_Queue", "HIGH"⟩,
    [⟨some "billing", 8, some "Billing_Queue"⟩]⟩

/-- The dictionary entry one taxonomy entry contributes: its id with
its number of matching keywords. -/
def scorePair (ntext : List Char) (x : TaxonomyEntry) : String × Nat :=
  (x.id, entryScore ntext x)

/-- Classification of the sample text invoice under the sample
taxonomy, used as a concrete witness value. -/
def clsInvoice : ClassificationResult := ⟨some "billing", 1, ["invoice"], false⟩

/-- Severity of the sample text invoice, used as a concrete witness
value. -/
def sevInvoice : SeverityResult := ⟨2, "low", "No severity indicators found"⟩

theorem ratFloor_eq_floor (q : ℚ) : ratFloor q = ⌊q⌋ := by
  rw [Rat.floor_def]; rfl

theorem round2_eq_round (q : ℚ) : round2 q = ((round (q * 100) : ℤ) : ℚ) / 100 := by
  unfold round2
  rw [ratFloor_eq_floor, ← round_eq]

theorem mem_of_lookup {α β : Type} [DecidableEq α] {l : List (α × β)} {a : α} {b : β}
    (h : l.lookup a = some b) : (a, b) ∈ l := by
  induction l with
  | nil => simp [List.lookup] at h
  | cons p t ih =>
    obtain ⟨k, v⟩ := p
    rw [List.lookup_cons] at h
    by_cases hk : a = k
    · subst hk
      simp only [beq_self_eq_true] at h
      cases h
      exact List.mem_cons_self _ _
    · have hne : (a == k) = false := beq_eq_false_iff_ne.mpr hk
      rw [hne] at h
      exact List.mem_cons_of_mem _ (ih h)

theorem firstLevelHit_some {rules : List (String × SeverityRule)} {ntext : List Char}
    {lvls : List String} {lvl kw : String} {rule : SeverityRule}
    (h : firstLevelHit rules ntext lvls = some (lvl, kw, rule)) :
    lvl ∈ lvls ∧ rule = (rules.lookup lvl).getD emptyRule ∧
      rule.keywords.find? (kwMatches ntext) = some kw := by
  induction lvls with
  | nil => simp [firstLevelHit] at h
  | cons x t ih =>
    rw [firstLevelHit] at h
    cases hm : levelMatch rules ntext x with
    | some p =>
      rw [hm] at h
      obtain ⟨kw0, rule0⟩ := p
      simp only [Option.some.injEq, Prod.mk.injEq] at h
      obtain ⟨h1, h2, h3⟩ := h
      subst h1; subst h2; subst h3
      unfold levelMatch at hm
      simp only [Option.map_eq_some'] at hm
      obtain ⟨kw1, hfind, hpair⟩ := hm
      simp only [Prod.mk.injEq] at hpair
      obtain ⟨hk, hr⟩ := hpair
      subst hk; subst hr
      exact ⟨List.mem_cons_self _ _, rfl, hfind⟩
    | none =>
      rw [hm] at h
      obtain ⟨h1, h2, h3⟩ := ih h
      exact ⟨List.mem_cons_of_mem _ h1, h2, h3⟩

/-- Claim C1: for every non-empty, non-whitespace text and every
taxonomy, the classification result has its low-confidence flag set
exactly when its confidence is strictly below one half, and the flag
is clear at exactly one half. -/
theorem needs_llm_iff_low_confidence (tax : List TaxonomyEntry) (text : String)
    (r : ClassificationResult) (hr : classify_intake tax text = .ok r) :
    (r.needs_llm = true ↔ r.confidence < 1/2) ∧
      (r.confidence = 1/2 → r.needs_llm = false) := by
  unfold classify_intake at hr
  split at hr
  · exact absurd hr (by simp)
  · dsimp only at hr
    split at hr
    · simp only [Except.ok.injEq] at hr
      subst hr
      refine ⟨by norm_num, by norm_num⟩
    · simp only [Except.ok.injEq] at hr
      subst hr
      dsimp only
      constructor
      · simp [decide_eq_true_eq]
      · intro h
        rw [h]
        simp

theorem needs_llm_iff_low_confidence_witness :
    classify_intake sampleTaxonomy "invoice" = .ok ⟨some "billing", 1, ["invoice"], false⟩ ∧
    (((⟨some "billing", 1, ["invoice"], false⟩ : ClassificationResult).needs_llm = true ↔
        (⟨some "billing", 1, ["invoice"], false⟩ : ClassificationResult).confidence < 1/2) ∧
      ((⟨some "billing", 1, ["invoice"], false⟩ : ClassificationResult).confidence = 1/2 →
        (⟨some "billing", 1, ["invoice"], false⟩ : ClassificationResult).needs_llm = false)) :=
  ⟨by decide, needs_llm_iff_low_confidence sampleTaxonomy "invoice" _ (by decide)⟩

/-- Claim C5: whenever the score reaches the override minimum,
route_case returns the override destination and priority with the
override status, for every category including none, and independently
of the routing rules. -/
theorem route_case_severity_override_first (cfg : RoutingConfig) (category : Option String)
    (score : Int) (h : cfg.severity_override.min_score ≤ score) :
    route_case cfg category score =
      ⟨cfg.severity_override.destination, cfg.severity_override.priority, .severity_override⟩ := by
  unfold route_case
  rw [if_pos (show score ≥ cfg.severity_override.min_score from h)]

theorem route_case_severity_override_first_witness :
    route_case sampleRouting none 10 =
      ⟨sampleRouting.severity_override.destination, sampleRouting.severity_override.priority,
        .severity_override⟩ :=
  route_case_severity_override_first sampleRouting none 10 (by decide)

/-- Claim C8: empty or whitespace-only text makes the classifier,
the severity scorer, and the pipeline each return the 422 error
envelope with no partial result, and the pipeline returns exactly the
envelope the classifier produces. -/
theorem empty_text_error_envelope (cfg : Config) (text : String) (category : Option String)
    (h : trimWs text.data = []) :
    classify_intake cfg.taxonomy text = .error invalidText ∧
    score_severity cfg.severity_rules text category = .error invalidText ∧
    triage_intake cfg text = .error invalidText ∧
    invalidText.code = 422 ∧
    (∀ e : ErrResp, classify_intake cfg.taxonomy text = .error e →
      triage_intake cfg text = .error e) := by
  unfold classify_intake score_severity triage_intake
  rw [h]
  simp [invalidText]

theorem empty_text_error_envelope_witness :
    trimWs "   ".data = [] ∧
    (classify_intake sampleConfig.taxonomy "   " = .error invalidText ∧
      score_severity sampleConfig.severity_rules "   " none = .error invalidText ∧
      triage_intake sampleConfig "   " = .error invalidText ∧
      invalidText.code = 422 ∧
      (∀ e : ErrResp, classify_intake sampleConfig.taxonomy "   " = .error e →
        triage_intake sampleConfig "   " = .error e)) :=
  ⟨by decide, empty_text_error_envelope sampleConfig "   " none (by decide)⟩

/-- Claim C9 counterexample: with a configured score of minus one on
the matching rule, score_severity returns a negative score, so the
score field is not always non-negative over arbitrary rule sets. -/
theorem severity_negative_score_cex :
    score_severity negScoreRules "pain" none = .ok ⟨-1, "low", "Matched keyword: pain"⟩ ∧
    (-1 : Int) < 0 := by
  constructor
  · decide
  · decide

/-- Claim C9 amended: when every configured score in the rule set is
non-negative, the score returned by score_severity is non-negative
for every non-empty text and every category. -/
theorem severity_score_nonneg (rules : List (String × SeverityRule)) (text : String)
    (category : Option String) (r : SeverityResult)
    (hr : score_severity rules text category = .ok r)
    (hpos : ∀ p ∈ rules, 0 ≤ p.2.score) : 0 ≤ r.score := by
  unfold score_severity at hr
  split at hr
  · exact absurd hr (by simp)
  · dsimp only at hr
    split at hr
    case _ lvl kw rule heq =>
      simp only [Except.ok.injEq] at hr
      subst hr
      obtain ⟨-, hrule, -⟩ := firstLevelHit_some heq
      cases hlk : rules.lookup lvl with
      | none =>
        rw [hlk] at hrule
        simp only [Option.getD_none] at hrule
        subst hrule
        simp [emptyRule]
      | some ru =>
        rw [hlk] at hrule
        simp only [Option.getD_some] at hrule
        dsimp only
        rw [hrule]
        exact hpos (lvl, ru) (mem_of_lookup hlk)
    case _ =>
      split at hr <;>
        (simp only [Except.ok.injEq] at hr; subst hr) <;> decide

theorem severity_score_nonneg_witness :
    score_severity sampleSeverity "minor issue" none =
      .ok ⟨1, "low", "Matched keyword: minor"⟩ ∧
    (0 : Int) ≤ (SeverityResult.mk 1 "low" "Matched keyword: minor").score :=
  ⟨by decide, severity_score_nonneg sampleSeverity "minor issue" none _ (by decide) (by decide)⟩

/-- Claim C4 counterexample: the rule set has a critical level whose
only keyword normalizes to the empty list, which is a substring of
every text; the level selection as worded by the claim picks
critical, but the source skips empty normalizations and returns the
default low result. -/
theorem severity_scan_claim_cex :
    claimLevelOf punctRules (normalize_text "hello") = some "critical" ∧
    score_severity punctRules "hello" none = .ok ⟨2, "low", "No severity indicators found"⟩ := by
  constructor
  · decide
  · decide

/-- Claim C6 counterexample: with a rule threshold of eight and a
score of seven, the priority worded by the claim is HIGH, but the
source takes the below-threshold branch and returns LOW. -/
theorem route_priority_claim_cex :
    claimPriority 8 7 = "HIGH" ∧
    route_case thresholdEightRouting (some "billing") 7 =
      ⟨"Billing_Queue", "LOW", .below_threshold⟩ := by
  constructor
  · decide
  · decide

/-- Claim C7 counterexample: two adjacent replaced characters produce
two adjacent spaces, so the output of normalization is not restricted
to single spaces. -/
theorem normalize_single_space_cex :
    normalize_text "a--b" = ['a', ' ', ' ', 'b'] ∧
    singleSpaced (normalize_text "a--b") = false := by
  constructor
  · decide
  · decide

theorem head?_dropWhile_not {p : Char → Bool} {l : List Char} {c : Char}
    (h : (l.dropWhile p).head? = some c) : p c = false := by
  induction l with
  | nil => simp [List.dropWhile] at h
  | cons x t ih =>
    rw [List.dropWhile_cons] at h
    by_cases hx : p x = true
    · rw [if_pos hx] at h
      exact ih h
    · rw [if_neg hx] at h
      simp only [List.head?_cons, Option.some.injEq] at h
      subst h
      exact Bool.not_eq_true _ ▸ hx

theorem getLast?_of_dropWhile {p : Char → Bool} {l : List Char} {c : Char}
    (h : (l.dropWhile p).getLast? = some c) : l.getLast? = some c := by
  obtain ⟨pre, hpre⟩ := List.dropWhile_suffix (l := l) p
  rw [← hpre, List.getLast?_append, h]
  rfl

theorem mem_trimWs {c : Char} {l : List Char} (h : c ∈ trimWs l) : c ∈ l := by
  unfold trimWs at h
  have h1 := (List.dropWhile_sublist isWs).mem h
  rw [List.mem_reverse] at h1
  have h2 := (List.dropWhile_sublist isWs).mem h1
  rwa [List.mem_reverse] at h2

/-- Claim C7 counterpart after amendment: for every input string, the
normalized output consists only of lowercase ASCII letters, digits,
and whitespace characters, with no leading and no trailing
whitespace, and the empty string maps to the empty list. Adjacent
replaced characters may still yield adjacent spaces, and interior
whitespace characters such as tabs are preserved. -/
theorem normalize_output_charset (s : String) :
    (∀ c ∈ normalize_text s, isLowerAZ c = true ∨ isDigit09 c = true ∨ isWs c = true) ∧
    (∀ c, (normalize_text s).head? = some c → isWs c = false) ∧
    (∀ c, (normalize_text s).getLast? = some c → isWs c = false) ∧
    normalize_text "" = [] := by
  refine ⟨?_, ?_, ?_, by decide⟩
  · intro c hc
    unfold normalize_text normList at hc
    have hm := mem_trimWs hc
    simp only [List.map_map, List.mem_map] at hm
    obtain ⟨a, -, ha⟩ := hm
    simp only [Function.comp_apply] at ha
    by_cases hk : keepCh (Char.toLower a) = true
    · rw [if_pos hk] at ha
      subst ha
      unfold keepCh at hk
      simp only [Bool.or_eq_true] at hk
      rcases hk with hk | hk
      · rcases hk with hk | hk
        · exact Or.inl hk
        · exact Or.inr (Or.inl hk)
      · exact Or.inr (Or.inr hk)
    · rw [if_neg hk] at ha
      subst ha
      exact Or.inr (Or.inr (by decide))
  · intro c hc
    unfold normalize_text normList trimWs at hc
    exact head?_dropWhile_not hc
  · intro c hc
    unfold normalize_text normList trimWs at hc
    have h1 := getLast?_of_dropWhile hc
    rw [List.getLast?_reverse] at h1
    exact head?_dropWhile_not h1

theorem normalize_output_charset_witness :
    (∀ c ∈ normalize_text "Pt has chest-pain!!", isLowerAZ c = true ∨ isDigit09 c = true ∨ isWs c = true) ∧
    (∀ c, (normalize_text "Pt has chest-pain!!").head? = some c → isWs c = false) ∧
    (∀ c, (normalize_text "Pt has chest-pain!!").getLast? = some c → isWs c = false) ∧
    normalize_text "" = [] :=
  normalize_output_charset "Pt has chest-pain!!"

theorem entryMatches_filter_norm (ntext : List Char) (e : TaxonomyEntry) :
    entryMatches ntext
      ⟨e.id, e.keywords.filter (fun kw => !(normalize_text kw).isEmpty)⟩ =
    entryMatches ntext e := by
  unfold entryMatches
  dsimp only
  rw [List.filter_filter]
  apply List.filter_congr
  intro kw _
  unfold kwMatches
  cases h : (normalize_text kw).isEmpty <;> simp [h]

theorem scoresOf_filter_norm (ntext : List Char) (tax : List TaxonomyEntry) :
    scoresOf ntext
      (tax.map fun e => ⟨e.id, e.keywords.filter (fun kw => !(normalize_text kw).isEmpty)⟩) =
    scoresOf ntext tax := by
  unfold scoresOf
  rw [List.foldl_map]
  congr 1
  funext acc e
  rw [entryMatches_filter_norm]

theorem matchedOf_filter_norm (ntext : List Char) (tax : List TaxonomyEntry) (cat : String) :
    matchedOf ntext
      (tax.map fun e => ⟨e.id, e.keywords.filter (fun kw => !(normalize_text kw).isEmpty)⟩) cat =
    matchedOf ntext tax cat := by
  unfold matchedOf
  rw [List.foldl_map]
  congr 1
  funext acc e
  rw [entryMatches_filter_norm]

/-- Claim C10: keywords whose normalization is empty never count: the
classifier returns identical results on a taxonomy and on the same
taxonomy with every empty-normalization keyword removed, for every
text, so such keywords contribute to no score and to no matched
list. -/
theorem classify_drops_empty_keywords (tax : List TaxonomyEntry) (text : String) :
    classify_intake
      (tax.map fun e => ⟨e.id, e.keywords.filter (fun kw => !(normalize_text kw).isEmpty)⟩) text =
    classify_intake tax text := by
  unfold classify_intake
  by_cases h : (trimWs text.data).isEmpty = true
  · rw [if_pos h, if_pos h]
  · rw [if_neg h, if_neg h]
    dsimp only
    simp only [scoresOf_filter_norm, matchedOf_filter_norm]

/-- Claim C6 after amendment: below the override threshold, the first
routing rule whose category equals the argument decides: destination
is the rule destination with the configured default as fallback,
status is routed exactly when the score meets the rule threshold and
below-threshold otherwise, priority is HIGH or NORMAL by the seven
cut only when the threshold is met, and LOW when it is not. -/
theorem route_case_first_rule (cfg : RoutingConfig) (category : Option String) (score : Int)
    (r : RoutingRule)
    (hlt : score < cfg.severity_override.min_score)
    (hfind : cfg.routes.find? (fun rr => rr.category == category) = some r) :
    (route_case cfg category score).destination = r.destination.getD cfg.default_destination ∧
    ((route_case cfg category score).status = .routed ↔ r.threshold ≤ score) ∧
    ((route_case cfg category score).status = .below_threshold ↔ score < r.threshold) ∧
    (r.threshold ≤ score →
      (route_case cfg category score).priority = if score ≥ 7 then "HIGH" else "NORMAL") ∧
    (score < r.threshold → (route_case cfg category score).priority = "LOW") := by
  unfold route_case
  rw [if_neg (by omega), hfind]
  dsimp only
  by_cases ht : score ≥ r.threshold
  · rw [if_pos ht]
    refine ⟨rfl, ⟨fun _ => ht, fun _ => rfl⟩, ⟨fun h => absurd h (by simp), fun h => absurd ht (by omega)⟩,
      fun _ => rfl, fun h => absurd ht (by omega)⟩
  · rw [if_neg ht]
    refine ⟨rfl, ⟨fun h => absurd h (by simp), fun h => absurd h (by omega)⟩,
      ⟨fun _ => by omega, fun _ => rfl⟩, fun h => absurd h (by omega), fun _ => rfl⟩

theorem route_case_first_rule_witness :
    (route_case sampleRouting (some "billing") 3).destination =
      (RoutingRule.mk (some "billing") 5 (some "Billing_Queue")).destination.getD
        sampleRouting.default_destination ∧
    ((route_case sampleRouting (some "billing") 3).status = .routed ↔
      (RoutingRule.mk (some "billing") 5 (some "Billing_Queue")).threshold ≤ 3) ∧
    ((route_case sampleRouting (some "billing") 3).status = .below_threshold ↔
      (3 : Int) < (RoutingRule.mk (some "billing") 5 (some "Billing_Queue")).threshold) ∧
    ((RoutingRule.mk (some "billing") 5 (some "Billing_Queue")).threshold ≤ 3 →
      (route_case sampleRouting (some "billing") 3).priority =
        if (3 : Int) ≥ 7 then "HIGH" else "NORMAL") ∧
    ((3 : Int) < (RoutingRule.mk (some "billing") 5 (some "Billing_Queue")).threshold →
      (route_case sampleRouting (some "billing") 3).priority = "LOW") :=
  route_case_first_rule sampleRouting (some "billing") 3
    ⟨some "billing", 5, some "Billing_Queue"⟩ (by decide) (by decide)

theorem classify_needs_eq {tax : List TaxonomyEntry} {text : String}
    {cls : ClassificationResult} (hok : classify_intake tax text = .ok cls) :
    cls.needs_llm = decide (cls.confidence < 1/2) := by
  unfold classify_intake at hok
  split at hok
  · exact absurd hok (by simp)
  · dsimp only at hok
    split at hok <;> (simp only [Except.ok.injEq] at hok; subst hok)
    · decide
    · rfl

theorem classify_ne_empty {tax : List TaxonomyEntry} {text : String}
    {cls : ClassificationResult} (hok : classify_intake tax text = .ok cls) :
    (trimWs text.data).isEmpty = false := by
  cases h : (trimWs text.data).isEmpty with
  | false => rfl
  | true =>
    unfold classify_intake at hok
    rw [if_pos h] at hok
    cases hok

/-- Claim C2: when the classifier succeeds with confidence below one
half, the pipeline defers, returning the raw classification and
touching neither the severity rules nor the routing configuration;
with confidence at least one half it resolves, assembling the
decision from the classification, the severity result on the
classified category, and the routing of that category and score, with
the low-confidence flag clear. -/
theorem triage_branch_behavior (cfg : Config) (text : String) (cls : ClassificationResult)
    (hok : classify_intake cfg.taxonomy text = .ok cls)
    (sr : List (String × SeverityRule)) (rc : RoutingConfig) (sev : SeverityResult)
    (hsev : score_severity cfg.severity_rules text cls.category = .ok sev) :
    (cls.confidence < 1/2 →
      triage_intake cfg text = .ok (.deferred cls) ∧
      triage_intake ⟨cfg.taxonomy, sr, rc⟩ text = .ok (.deferred cls) ∧
      TriageResult.needsLLM (.deferred cls) = true) ∧
    (1/2 ≤ cls.confidence →
      triage_intake cfg text = .ok (.resolved
        ⟨pyOrDefault cls.category "general_inquiry", sev.level, sev.score,
          (route_case cfg.routing cls.category sev.score).priority,
          (route_case cfg.routing cls.category sev.score).destination,
          (route_case cfg.routing cls.category sev.score).status⟩
        cls sev (route_case cfg.routing cls.category sev.score)) ∧
      TriageResult.needsLLM (.resolved
        ⟨pyOrDefault cls.category "general_inquiry", sev.level, sev.score,
          (route_case cfg.routing cls.category sev.score).priority,
          (route_case cfg.routing cls.category sev.score).destination,
          (route_case cfg.routing cls.category sev.score).status⟩
        cls sev (route_case cfg.routing cls.category sev.score)) = false) := by
  have hne := classify_ne_empty hok
  have hneeds := classify_needs_eq hok
  constructor
  · intro hlow
    have hll : cls.needs_llm = true := by
      rw [hneeds]
      exact decide_eq_true hlow
    refine ⟨?_, ?_, rfl⟩
    · unfold triage_intake
      rw [hne, hok]
      simp [hll]
    · unfold triage_intake
      dsimp only
      rw [hne, hok]
      simp [hll]
  · intro hhigh
    have hll : cls.needs_llm = false := by
      rw [hneeds]
      simp only [decide_eq_false_iff_not, not_lt]
      exact hhigh
    refine ⟨?_, rfl⟩
    unfold triage_intake
    rw [hne, hok]
    simp only [hll]
    rw [hsev]
    rfl



theorem triage_branch_behavior_witness :
    (clsInvoice.confidence < 1/2 →
      triage_intake sampleConfig "invoice" = .ok (.deferred clsInvoice) ∧
      triage_intake ⟨sampleConfig.taxonomy, sampleSeverity, sampleRouting⟩ "invoice" =
        .ok (.deferred clsInvoice) ∧
      TriageResult.needsLLM (.deferred clsInvoice) = true) ∧
    (1/2 ≤ clsInvoice.confidence →
      triage_intake sampleConfig "invoice" = .ok (.resolved
        ⟨pyOrDefault clsInvoice.category "general_inquiry", sevInvoice.level, sevInvoice.score,
          (route_case sampleConfig.routing clsInvoice.category sevInvoice.score).priority,
          (route_case sampleConfig.routing clsInvoice.category sevInvoice.score).destination,
          (route_case sampleConfig.routing clsInvoice.category sevInvoice.score).status⟩
        clsInvoice sevInvoice (route_case sampleConfig.routing clsInvoice.category sevInvoice.score)) ∧
      TriageResult.needsLLM (.resolved
        ⟨pyOrDefault clsInvoice.category "general_inquiry", sevInvoice.level, sevInvoice.score,
          (route_case sampleConfig.routing clsInvoice.category sevInvoice.score).priority,
          (route_case sampleConfig.routing clsInvoice.category sevInvoice.score).destination,
          (route_case sampleConfig.routing clsInvoice.category sevInvoice.score).status⟩
        clsInvoice sevInvoice (route_case sampleConfig.routing clsInvoice.category sevInvoice.score)) = false) :=
  triage_branch_behavior sampleConfig "invoice" clsInvoice (by decide)
    sampleSeverity sampleRouting sevInvoice (by decide)

theorem levelHasMatch_iff_levelMatch {rules : List (String × SeverityRule)} {ntext : List Char}
    {lvl : String} :
    levelHasMatch rules ntext lvl = true ↔ (levelMatch rules ntext lvl).isSome = true := by
  unfold levelHasMatch levelMatch
  dsimp only
  cases hfind : List.find? (kwMatches ntext) ((rules.lookup lvl).getD emptyRule).keywords with
  | none =>
    simp only [hfind, Option.map_none', Option.isSome_none]
    simp only [Bool.false_eq_true, iff_false]
    intro hc
    obtain ⟨kw, hmem, hp⟩ := List.any_eq_true.mp hc
    exact absurd hp (List.find?_eq_none.mp hfind kw hmem)
  | some kw =>
    simp only [hfind, Option.map_some', Option.isSome_some, iff_true]
    exact List.any_eq_true.mpr ⟨kw, List.mem_of_find?_eq_some hfind, List.find?_some hfind⟩

theorem firstLevelHit_min {R : String → String → Prop} {rules : List (String × SeverityRule)}
    {ntext : List Char} {lvls : List String} {lvl kw : String} {rule : SeverityRule}
    (hp : lvls.Pairwise R) (h : firstLevelHit rules ntext lvls = some (lvl, kw, rule)) :
    ∀ l2 ∈ lvls, levelHasMatch rules ntext l2 = true → (R lvl l2 ∨ lvl = l2) := by
  induction lvls with
  | nil => simp [firstLevelHit] at h
  | cons x t ih =>
    rw [List.pairwise_cons] at hp
    obtain ⟨hx, ht⟩ := hp
    rw [firstLevelHit] at h
    cases hm : levelMatch rules ntext x with
    | some p =>
      rw [hm] at h
      obtain ⟨kw0, rule0⟩ := p
      simp only [Option.some.injEq, Prod.mk.injEq] at h
      obtain ⟨h1, -, -⟩ := h
      subst h1
      intro l2 hl2 hmatch
      rcases List.mem_cons.mp hl2 with rfl | hl2t
      · exact Or.inr rfl
      · exact Or.inl (hx l2 hl2t)
    | none =>
      rw [hm] at h
      intro l2 hl2 hmatch
      rcases List.mem_cons.mp hl2 with rfl | hl2t
      · rw [levelHasMatch_iff_levelMatch, hm] at hmatch
        cases hmatch
      · exact ih ht h l2 hl2t hmatch

theorem firstLevelHit_none {rules : List (String × SeverityRule)} {ntext : List Char}
    {lvls : List String} (h : firstLevelHit rules ntext lvls = none) :
    ∀ l2 ∈ lvls, levelHasMatch rules ntext l2 = false := by
  induction lvls with
  | nil => simp
  | cons x t ih =>
    rw [firstLevelHit] at h
    cases hm : levelMatch rules ntext x with
    | some p => rw [hm] at h; cases h
    | none =>
      rw [hm] at h
      intro l2 hl2
      rcases List.mem_cons.mp hl2 with rfl | hl2t
      · rw [Bool.eq_false_iff]
        intro hc
        rw [levelHasMatch_iff_levelMatch, hm] at hc
        cases hc
      · exact ih h l2 hl2t

theorem orderedLevels_mem {rules : List (String × SeverityRule)} {lvl : String} :
    lvl ∈ orderedLevels rules ↔ lvl ∈ rules.map Prod.fst := by
  unfold orderedLevels
  rw [List.mem_append]
  constructor
  · intro h
    rcases h with h | h
    · rw [List.mem_filter] at h
      exact List.elem_iff.mp h.2
    · exact (List.mem_filter.mp h).1
  · intro h
    by_cases hp : lvl ∈ priorityOrder
    · exact Or.inl (List.mem_filter.mpr ⟨hp, List.elem_iff.mpr h⟩)
    · refine Or.inr (List.mem_filter.mpr ⟨h, ?_⟩)
      rw [Bool.not_eq_true']
      rw [Bool.eq_false_iff]
      intro hc
      exact hp (List.elem_iff.mp hc)

theorem filter_pairwise_indexOf (q : String → Bool) {l : List String} (hnd : l.Nodup) :
    (l.filter q).Pairwise (fun a b => l.indexOf a ≤ l.indexOf b) := by
  induction l with
  | nil => simp
  | cons x t ih =>
    rw [List.nodup_cons] at hnd
    obtain ⟨hx, ht⟩ := hnd
    have htail : (t.filter q).Pairwise (fun a b => (x :: t).indexOf a ≤ (x :: t).indexOf b) := by
      apply (ih ht).imp_of_mem
      intro a b ha hb hab
      have ha' : a ∈ t := (List.filter_sublist t).mem ha
      have hb' : b ∈ t := (List.filter_sublist t).mem hb
      rw [List.indexOf_cons_ne _ (fun hc => hx (by rw [hc]; exact ha')),
        List.indexOf_cons_ne _ (fun hc => hx (by rw [hc]; exact hb'))]
      exact Nat.succ_le_succ hab
    rw [List.filter_cons]
    by_cases hq : q x = true
    · rw [if_pos hq]
      rw [List.pairwise_cons]
      refine ⟨?_, htail⟩
      intro b hb
      rw [List.indexOf_cons_self]
      exact Nat.zero_le _
    · rw [if_neg hq]
      exact htail

theorem levelRank_critical (d : List String) : levelRank d "critical" = 0 := rfl

theorem levelRank_high (d : List String) : levelRank d "high" = 1 := rfl

theorem levelRank_medium (d : List String) : levelRank d "medium" = 2 := rfl

theorem levelRank_low (d : List String) : levelRank d "low" = 3 := rfl

theorem levelRank_other (d : List String) (a : String) (h : a ∉ priorityOrder) :
    levelRank d a = 4 + d.indexOf a := by
  simp only [priorityOrder, List.mem_cons, List.mem_nil_iff, or_false, not_or] at h
  obtain ⟨h1, h2, h3, h4⟩ := h
  unfold levelRank
  rw [if_neg h1, if_neg h2, if_neg h3, if_neg h4]

theorem notin_priority_of_filter {keys : List String} {a : String}
    (h : a ∈ keys.filter (fun lvl => !priorityOrder.contains lvl)) : a ∉ priorityOrder := by
  have h2 := (List.mem_filter.mp h).2
  rw [Bool.not_eq_true'] at h2
  intro hc
  have h3 := List.elem_iff.mpr hc
  unfold List.contains at h2
  rw [h3] at h2
  cases h2

theorem orderedLevels_pairwise (rules : List (String × SeverityRule))
    (hnd : (rules.map Prod.fst).Nodup) :
    (orderedLevels rules).Pairwise
      (fun a b => levelRank (rules.map Prod.fst) a ≤ levelRank (rules.map Prod.fst) b) := by
  unfold orderedLevels
  rw [List.pairwise_append]
  refine ⟨?_, ?_, ?_⟩
  · apply List.Pairwise.sublist (List.filter_sublist _)
    unfold priorityOrder
    refine List.Pairwise.cons ?_ (List.Pairwise.cons ?_ (List.Pairwise.cons ?_
      (List.pairwise_singleton _ _)))
    · intro b hb
      simp only [List.mem_cons, List.mem_nil_iff, or_false] at hb
      rcases hb with rfl | rfl | rfl <;>
        simp [levelRank_critical, levelRank_high, levelRank_medium, levelRank_low]
    · intro b hb
      simp only [List.mem_cons, List.mem_nil_iff, or_false] at hb
      rcases hb with rfl | rfl <;>
        simp [levelRank_high, levelRank_medium, levelRank_low]
    · intro b hb
      simp only [List.mem_cons, List.mem_nil_iff, or_false] at hb
      subst hb
      simp [levelRank_medium, levelRank_low]
  · apply (filter_pairwise_indexOf _ hnd).imp_of_mem
    intro a b ha hb hab
    rw [levelRank_other _ _ (notin_priority_of_filter ha),
      levelRank_other _ _ (notin_priority_of_filter hb)]
    omega
  · intro a ha b hb
    have ha' : a ∈ priorityOrder := (List.mem_filter.mp ha).1
    rw [levelRank_other _ _ (notin_priority_of_filter hb)]
    simp only [priorityOrder, List.mem_cons, List.mem_nil_iff, or_false] at ha'
    rcases ha' with rfl | rfl | rfl | rfl
    · rw [levelRank_critical]; omega
    · rw [levelRank_high]; omega
    · rw [levelRank_medium]; omega
    · rw [levelRank_low]; omega

/-- Claim C4 after amendment: with distinct declared levels, if any
level has a keyword with non-empty normalization occurring in the
text, score_severity returns a level that matches, with the score
configured for that level, and of minimal rank in the scan order that
puts critical, high, medium, low first and the remaining declared
levels after them in declaration order; if no level matches, the
emergency category yields the fixed escalation result and any other
category the default low result. -/
theorem score_severity_level_rank (rules : List (String × SeverityRule)) (text : String)
    (category : Option String) (r : SeverityResult)
    (hnd : (rules.map Prod.fst).Nodup)
    (hr : score_severity rules text category = .ok r) :
    ((∃ lvl ∈ rules.map Prod.fst, levelHasMatch rules (normalize_text text) lvl = true) →
      r.level ∈ rules.map Prod.fst ∧
      levelHasMatch rules (normalize_text text) r.level = true ∧
      r.score = ((rules.lookup r.level).getD emptyRule).score ∧
      ∀ lvl ∈ rules.map Prod.fst, levelHasMatch rules (normalize_text text) lvl = true →
        levelRank (rules.map Prod.fst) r.level ≤ levelRank (rules.map Prod.fst) lvl) ∧
    ((∀ lvl ∈ rules.map Prod.fst, levelHasMatch rules (normalize_text text) lvl = false) →
      (category = some "emergency" → r = ⟨9, "escalated", "Emergency category escalation"⟩) ∧
      (category ≠ some "emergency" → r = ⟨2, "low", "No severity indicators found"⟩)) := by
  unfold score_severity at hr
  split at hr
  · exact absurd hr (by simp)
  · dsimp only at hr
    split at hr
    case _ lvl kw rule heq =>
      simp only [Except.ok.injEq] at hr
      subst hr
      obtain ⟨hmem, hrule, hfind⟩ := firstLevelHit_some heq
      have hm : levelHasMatch rules (normalize_text text) lvl = true := by
        rw [levelHasMatch_iff_levelMatch]
        unfold levelMatch
        dsimp only
        rw [← hrule, hfind]
        rfl
      constructor
      · intro _
        dsimp only
        refine ⟨orderedLevels_mem.mp hmem, hm, by rw [hrule], ?_⟩
        intro lvl2 hlvl2 hm2
        have hord := firstLevelHit_min (orderedLevels_pairwise rules hnd) heq lvl2
          (orderedLevels_mem.mpr hlvl2) hm2
        rcases hord with h | h
        · exact h
        · rw [h]
      · intro hall
        have := hall lvl (orderedLevels_mem.mp hmem)
        rw [this] at hm
        cases hm
    case _ heq =>
      constructor
      · intro hex
        obtain ⟨lvl2, hlvl2, hm2⟩ := hex
        have := firstLevelHit_none heq lvl2 (orderedLevels_mem.mpr hlvl2)
        rw [this] at hm2
        cases hm2
      · intro _
        constructor
        · intro hcat
          rw [if_pos hcat] at hr
          simp only [Except.ok.injEq] at hr
          exact hr.symm
        · intro hcat
          rw [if_neg hcat] at hr
          simp only [Except.ok.injEq] at hr
          exact hr.symm

theorem score_severity_level_rank_witness :
    ((∃ lvl ∈ sampleSeverity.map Prod.fst,
        levelHasMatch sampleSeverity (normalize_text "minor issue") lvl = true) →
      (SeverityResult.mk 1 "low" "Matched keyword: minor").level ∈ sampleSeverity.map Prod.fst ∧
      levelHasMatch sampleSeverity (normalize_text "minor issue")
        (SeverityResult.mk 1 "low" "Matched keyword: minor").level = true ∧
      (SeverityResult.mk 1 "low" "Matched keyword: minor").score =
        ((sampleSeverity.lookup (SeverityResult.mk 1 "low" "Matched keyword: minor").level).getD
          emptyRule).score ∧
      ∀ lvl ∈ sampleSeverity.map Prod.fst,
        levelHasMatch sampleSeverity (normalize_text "minor issue") lvl = true →
          levelRank (sampleSeverity.map Prod.fst)
              (SeverityResult.mk 1 "low" "Matched keyword: minor").level ≤
            levelRank (sampleSeverity.map Prod.fst) lvl) ∧
    ((∀ lvl ∈ sampleSeverity.map Prod.fst,
        levelHasMatch sampleSeverity (normalize_text "minor issue") lvl = false) →
      (none = some "emergency" →
        SeverityResult.mk 1 "low" "Matched keyword: minor" =
          ⟨9, "escalated", "Emergency category escalation"⟩) ∧
      (none ≠ some "emergency" →
        SeverityResult.mk 1 "low" "Matched keyword: minor" =
          ⟨2, "low", "No severity indicators found"⟩)) :=
  score_severity_level_rank sampleSeverity "minor issue" none
    (SeverityResult.mk 1 "low" "Matched keyword: minor") (by decide) (by decide)


theorem insertScore_absent {acc : List (String × Nat)} {c : String}
    (h : ¬ c ∈ acc.map Prod.fst) : insertScore acc c = acc ++ [(c, 1)] := by
  induction acc with
  | nil => rfl
  | cons p t ih =>
    obtain ⟨k, v⟩ := p
    simp only [List.map_cons, List.mem_cons, not_or] at h
    obtain ⟨h1, h2⟩ := h
    unfold insertScore
    rw [if_neg (fun hc => h1 hc.symm), ih h2]
    rfl

theorem insertScore_last {c : String} {n : Nat} : ∀ {acc : List (String × Nat)},
    ¬ c ∈ acc.map Prod.fst → insertScore (acc ++ [(c, n)]) c = acc ++ [(c, n + 1)] := by
  intro acc
  induction acc with
  | nil =>
    intro _
    show insertScore [(c, n)] c = [(c, n + 1)]
    unfold insertScore
    rw [if_pos rfl]
  | cons p t ih =>
    intro h
    obtain ⟨k, v⟩ := p
    simp only [List.map_cons, List.mem_cons, not_or] at h
    obtain ⟨h1, h2⟩ := h
    show insertScore ((k, v) :: (t ++ [(c, n)])) c = _
    unfold insertScore
    rw [if_neg (fun hc => h1 hc.symm), ih h2]
    rfl

theorem foldl_insertScore_const {c : String} : ∀ (L : List String) (acc : List (String × Nat))
    (n : Nat), ¬ c ∈ acc.map Prod.fst →
    L.foldl (fun a _ => insertScore a c) (acc ++ [(c, n)]) = acc ++ [(c, n + L.length)] := by
  intro L
  induction L with
  | nil =>
    intro acc n _
    simp
  | cons x t ih =>
    intro acc n h
    show t.foldl _ (insertScore (acc ++ [(c, n)]) c) = _
    rw [insertScore_last h, ih acc (n + 1) h,
      show n + 1 + t.length = n + (x :: t).length by simp only [List.length_cons]; omega]

theorem foldl_insertScore_all {c : String} (L : List String) (acc : List (String × Nat))
    (h : ¬ c ∈ acc.map Prod.fst) :
    L.foldl (fun a _ => insertScore a c) acc =
      if L.isEmpty then acc else acc ++ [(c, L.length)] := by
  cases L with
  | nil => rfl
  | cons x t =>
    show t.foldl _ (insertScore acc c) = _
    rw [insertScore_absent h, foldl_insertScore_const t acc 1 h]
    simp only [List.isEmpty_cons, Bool.false_eq_true, if_false,
      show (1 : Nat) + t.length = (x :: t).length by simp only [List.length_cons]; omega]

theorem scoresOf_eq_acc (ntext : List Char) : ∀ (tax : List TaxonomyEntry)
    (acc : List (String × Nat)),
    (∀ x ∈ tax, ¬ x.id ∈ acc.map Prod.fst) →
    (tax.map TaxonomyEntry.id).Nodup →
    tax.foldl (fun acc e => (entryMatches ntext e).foldl (fun a _ => insertScore a e.id) acc) acc =
      acc ++ (tax.filter (fun x => !(entryMatches ntext x).isEmpty)).map (scorePair ntext) := by
  intro tax
  induction tax with
  | nil =>
    intro acc _ _
    simp
  | cons e t ih =>
    intro acc hacc hnd
    rw [List.map_cons, List.nodup_cons] at hnd
    obtain ⟨hid, hndt⟩ := hnd
    show t.foldl _ ((entryMatches ntext e).foldl _ acc) = _
    rw [foldl_insertScore_all _ acc (hacc e (List.mem_cons_self _ _))]
    rw [List.filter_cons]
    by_cases he : (entryMatches ntext e).isEmpty = true
    · rw [if_pos he]
      have hcond : (!(entryMatches ntext e).isEmpty) = false := by rw [he]; rfl
      simp only [hcond, Bool.false_eq_true, if_false]
      exact ih acc (fun x hx => hacc x (List.mem_cons_of_mem _ hx)) hndt
    · rw [if_neg he]
      have hcond : (!(entryMatches ntext e).isEmpty) = true := by
        cases hb : (entryMatches ntext e).isEmpty
        · rfl
        · exact absurd hb he
      simp only [hcond, if_true]
      have hacc2 : ∀ x ∈ t, ¬ x.id ∈ (acc ++ [(e.id, (entryMatches ntext e).length)]).map Prod.fst := by
        intro x hx
        rw [List.map_append, List.mem_append]
        rintro (hc | hc)
        · exact hacc x (List.mem_cons_of_mem _ hx) hc
        · simp only [List.map_cons, List.map_nil, List.mem_cons, List.mem_nil_iff, or_false] at hc
          exact hid (hc ▸ List.mem_map_of_mem TaxonomyEntry.id hx)
      rw [ih (acc ++ [(e.id, (entryMatches ntext e).length)]) hacc2 hndt]
      rw [List.append_assoc]
      rfl

theorem scoresOf_filter_map (ntext : List Char) (tax : List TaxonomyEntry)
    (hnd : (tax.map TaxonomyEntry.id).Nodup) :
    scoresOf ntext tax =
      (tax.filter (fun x => !(entryMatches ntext x).isEmpty)).map (scorePair ntext) := by
  unfold scoresOf
  have := scoresOf_eq_acc ntext tax [] (by simp) hnd
  simpa using this

theorem mem_left_of_append_eq {α : Type} : ∀ {l1 l2 : List α} {x y : α} {t1 t2 : List α},
    l1 ++ x :: t1 = l2 ++ y :: t2 → l1.length < l2.length → x ∈ l2 := by
  intro l1
  induction l1 with
  | nil =>
    intro l2 x y t1 t2 h hlen
    cases l2 with
    | nil => exact absurd hlen (by simp)
    | cons z l2t =>
      rw [List.nil_append, List.cons_append] at h
      injection h with h1 _
      rw [h1]
      exact List.mem_cons_self _ _
  | cons a l1t ih =>
    intro l2 x y t1 t2 h hlen
    cases l2 with
    | nil => exact absurd hlen (by simp)
    | cons z l2t =>
      rw [List.cons_append, List.cons_append] at h
      injection h with _ h2
      have hlen2 : l1t.length < l2t.length := by
        simp only [List.length_cons] at hlen
        omega
      exact List.mem_cons_of_mem _ (ih h2 hlen2)

theorem pyMaxAux_spec : ∀ (l : List (String × Nat)) (b : String × Nat),
    ∃ pre suf, b :: l = pre ++ (pyMaxAux b l) :: suf ∧
      (∀ p ∈ pre, p.2 < (pyMaxAux b l).2) ∧
      (∀ p ∈ b :: l, p.2 ≤ (pyMaxAux b l).2) := by
  intro l
  induction l with
  | nil =>
    intro b
    refine ⟨[], [], rfl, by simp, ?_⟩
    intro p hp
    simp only [List.mem_cons, List.mem_nil_iff, or_false] at hp
    rw [hp]
    exact le_refl _
  | cons p t ih =>
    intro b
    rw [pyMaxAux]
    by_cases hgt : p.2 > b.2
    · rw [if_pos hgt]
      obtain ⟨pre2, suf2, h1, h2, h3⟩ := ih p
      refine ⟨b :: pre2, suf2, ?_, ?_, ?_⟩
      · rw [List.cons_append, ← h1]
      · intro q hq
        rcases List.mem_cons.mp hq with rfl | hq2
        · exact lt_of_lt_of_le hgt (h3 p (List.mem_cons_self _ _))
        · exact h2 q hq2
      · intro q hq
        rcases List.mem_cons.mp hq with rfl | hq2
        · exact le_of_lt (lt_of_lt_of_le hgt (h3 p (List.mem_cons_self _ _)))
        · exact h3 q hq2
    · rw [if_neg hgt]
      obtain ⟨pre2, suf2, h1, h2, h3⟩ := ih b
      cases pre2 with
      | nil =>
        rw [List.nil_append] at h1
        injection h1 with hb ht
        refine ⟨[], p :: t, ?_, by simp, ?_⟩
        · rw [List.nil_append, ← hb]
        · intro q hq
          rcases List.mem_cons.mp hq with rfl | hq2
          · rw [← hb]
          rcases List.mem_cons.mp hq2 with rfl | hq3
          · rw [← hb]
            exact Nat.le_of_not_lt hgt
          · exact h3 q (List.mem_cons_of_mem _ hq3)
      | cons b0 pre3 =>
        rw [List.cons_append] at h1
        injection h1 with hb0 hrest
        have hbres : b.2 < (pyMaxAux b t).2 := by
          have hh := h2 b0 (List.mem_cons_self _ _)
          rw [← hb0] at hh
          exact hh
        refine ⟨b :: p :: pre3, suf2, ?_, ?_, ?_⟩
        · rw [List.cons_append, List.cons_append, ← hrest]
        · intro q hq
          rcases List.mem_cons.mp hq with rfl | hq2
          · exact hbres
          rcases List.mem_cons.mp hq2 with rfl | hq3
          · exact lt_of_le_of_lt (Nat.le_of_not_lt hgt) hbres
          · exact h2 q (List.mem_cons_of_mem _ hq3)
        · intro q hq
          rcases List.mem_cons.mp hq with rfl | hq2
          · exact h3 q (List.mem_cons_self _ _)
          rcases List.mem_cons.mp hq2 with rfl | hq3
          · exact le_of_lt (lt_of_le_of_lt (Nat.le_of_not_lt hgt) hbres)
          · exact h3 q (List.mem_cons_of_mem _ hq3)

theorem sum_scores_filter (ntext : List Char) (tax : List TaxonomyEntry) :
    ((tax.filter (fun x => !(entryMatches ntext x).isEmpty)).map
        (fun x => entryScore ntext x)).sum =
      (tax.map (fun x => entryScore ntext x)).sum := by
  induction tax with
  | nil => rfl
  | cons e t ih =>
    rw [List.filter_cons]
    by_cases he : (entryMatches ntext e).isEmpty = true
    · have hcond : (!(entryMatches ntext e).isEmpty) = false := by rw [he]; rfl
      simp only [hcond, Bool.false_eq_true, if_false]
      have h0 : entryScore ntext e = 0 := by
        unfold entryScore
        rw [List.isEmpty_iff] at he
        rw [he]
        rfl
      rw [List.map_cons, List.sum_cons, h0, ih]
      omega
    · have hcond : (!(entryMatches ntext e).isEmpty) = true := by
        cases hb : (entryMatches ntext e).isEmpty
        · rfl
        · exact absurd hb he
      simp only [hcond, if_true]
      rw [List.map_cons, List.sum_cons, List.map_cons, List.sum_cons, ih]

theorem total_eq_sum (ntext : List Char) (tax : List TaxonomyEntry)
    (hnd : (tax.map TaxonomyEntry.id).Nodup) :
    ((scoresOf ntext tax).map Prod.snd).sum = (tax.map (fun x => entryScore ntext x)).sum := by
  rw [scoresOf_filter_map ntext tax hnd, List.map_map]
  have hfun : (Prod.snd ∘ scorePair ntext) = fun x => entryScore ntext x := rfl
  rw [hfun]
  exact sum_scores_filter ntext tax

/-- Claim C3: with pairwise distinct category ids, whenever the
matched entries of the taxonomy, in declaration order, split as pre,
e, suf where e has the maximal match count and every earlier matched
entry counts strictly fewer matches, the classifier returns category
e with confidence the match count of e divided by the total match
count over all entries, rounded to two decimal places. -/
theorem classify_winner_first_max (tax : List TaxonomyEntry) (text : String)
    (r : ClassificationResult) (e : TaxonomyEntry) (pre suf : List TaxonomyEntry)
    (hnd : (tax.map TaxonomyEntry.id).Nodup)
    (hr : classify_intake tax text = .ok r)
    (hsplit : tax.filter (fun x => !(entryMatches (normalize_text text) x).isEmpty) =
      pre ++ e :: suf)
    (hmax : ∀ x ∈ tax, entryScore (normalize_text text) x ≤ entryScore (normalize_text text) e)
    (hfirst : ∀ x ∈ pre,
      entryScore (normalize_text text) x < entryScore (normalize_text text) e) :
    r.category = some e.id ∧
    r.confidence = round2 ((entryScore (normalize_text text) e : ℚ) /
      ((tax.map (fun x => entryScore (normalize_text text) x)).sum : ℚ)) := by
  unfold classify_intake at hr
  split at hr
  · exact absurd hr (by simp)
  · dsimp only at hr
    have hsc : scoresOf (normalize_text text) tax =
        pre.map (scorePair (normalize_text text)) ++
          scorePair (normalize_text text) e :: suf.map (scorePair (normalize_text text)) := by
      rw [scoresOf_filter_map _ _ hnd, hsplit, List.map_append, List.map_cons]
    split at hr
    case _ heq =>
      rw [heq] at hsc
      exact absurd hsc.symm (by simp)
    case _ s0 srest heq =>
      simp only [Except.ok.injEq] at hr
      subst hr
      rw [heq] at hsc
      obtain ⟨preP, sufP, hdec, hltP, hleP⟩ := pyMaxAux_spec srest s0
      have hcomb : preP ++ pyMaxAux s0 srest :: sufP =
          pre.map (scorePair (normalize_text text)) ++
            scorePair (normalize_text text) e :: suf.map (scorePair (normalize_text text)) :=
        hdec.symm.trans hsc
      have hmem_entry : ∀ q ∈ s0 :: srest, ∃ x ∈ tax, scorePair (normalize_text text) x = q := by
        intro q hq
        rw [hsc] at hq
        have hfil : ∀ y ∈ pre ++ e :: suf, y ∈ tax := by
          intro y hy
          rw [← hsplit] at hy
          exact (List.filter_sublist tax).mem hy
        rcases List.mem_append.mp hq with hq1 | hq1
        · obtain ⟨x, hx, hxq⟩ := List.mem_map.mp hq1
          exact ⟨x, hfil x (List.mem_append.mpr (Or.inl hx)), hxq⟩
        · rcases List.mem_cons.mp hq1 with rfl | hq2
          · exact ⟨e, hfil e (List.mem_append.mpr (Or.inr (List.mem_cons_self _ _))), rfl⟩
          · obtain ⟨x, hx, hxq⟩ := List.mem_map.mp hq2
            exact ⟨x, hfil x (List.mem_append.mpr (Or.inr (List.mem_cons_of_mem _ hx))), hxq⟩
      have hub : ∀ q ∈ s0 :: srest, q.2 ≤ entryScore (normalize_text text) e := by
        intro q hq
        obtain ⟨x, hx, hxq⟩ := hmem_entry q hq
        rw [← hxq]
        exact hmax x hx
      have hfe_mem : scorePair (normalize_text text) e ∈ s0 :: srest := by
        rw [hsc]
        exact List.mem_append.mpr (Or.inr (List.mem_cons_self _ _))
      have hbest_mem : pyMaxAux s0 srest ∈ s0 :: srest := by
        rw [hdec]
        exact List.mem_append.mpr (Or.inr (List.mem_cons_self _ _))
      have hbe : pyMaxAux s0 srest = scorePair (normalize_text text) e := by
        have htri := Nat.lt_trichotomy preP.length
          (pre.map (scorePair (normalize_text text))).length
        rcases htri with hl | hl | hl
        · exfalso
          have hin := mem_left_of_append_eq hcomb hl
          obtain ⟨x, hx, hxq⟩ := List.mem_map.mp hin
          have h1 : (pyMaxAux s0 srest).2 < entryScore (normalize_text text) e := by
            rw [← hxq]
            exact hfirst x hx
          have h3 : entryScore (normalize_text text) e ≤ (pyMaxAux s0 srest).2 :=
            hleP (scorePair (normalize_text text) e) hfe_mem
          omega
        · obtain ⟨-, hcons⟩ := List.append_inj hcomb hl
          injection hcons with hbe2 hsuf2
        · exfalso
          have hin := mem_left_of_append_eq hcomb.symm hl
          have h1 : entryScore (normalize_text text) e < (pyMaxAux s0 srest).2 :=
            hltP (scorePair (normalize_text text) e) hin
          have h2 := hub (pyMaxAux s0 srest) hbest_mem
          omega
      constructor
      · dsimp only
        rw [hbe]
        rfl
      · dsimp only
        rw [hbe, total_eq_sum _ _ hnd]
        rfl

theorem classify_winner_first_max_witness :
    (⟨some "billing", 67/100, ["invoice", "refund"], false⟩ : ClassificationResult).category =
      some (TaxonomyEntry.mk "billing" ["invoice", "refund"]).id ∧
    (⟨some "billing", 67/100, ["invoice", "refund"], false⟩ : ClassificationResult).confidence =
      round2 ((entryScore (normalize_text "chest pain and invoice refund")
          (TaxonomyEntry.mk "billing" ["invoice", "refund"]) : ℚ) /
        ((sampleTaxonomy.map (fun x =>
            entryScore (normalize_text "chest pain and invoice refund") x)).sum : ℚ)) :=
  classify_winner_first_max sampleTaxonomy "chest pain and invoice refund"
    ⟨some "billing", 67/100, ["invoice", "refund"], false⟩
    ⟨"billing", ["invoice", "refund"]⟩
    [⟨"emergency", ["chest pain", "bleeding"]⟩] []
    (by decide) (by decide) (by decide) (by decide) (by decide)
